import Mathlib

/-!
Verification development for the `renamer` application.

JS strings are embedded as `List Char`.  A JS `Set` (insertion-ordered,
duplicate-free) is embedded as a duplicate-free `List` built with `setAdd`.
The reactive engine (signals.js) is embedded as explicit state passing:
`SchedulerState` models the module-level `pendingEffects` set and the
`isFlushing` flag; an effect's behaviour during a flush is abstracted as a
function `run : E → σ → σ × List E × Bool` giving the new world state, the
effects it schedules via signal writes while running, and whether it
returned normally (`false` models a thrown exception).  `flushEffects`
iterates the live set by index, matching JS `for…of` over a `Set`, which
visits elements inserted during the iteration.
-/

/-- Model of `Set.prototype.add`: append if not already a member. -/
def setAdd {E : Type} [DecidableEq E] (s : List E) (e : E) : List E :=
  if e ∈ s then s else s ++ [e]

/-- The module-level scheduler state of signals.js. -/
structure SchedulerState (E : Type) where
  pendingEffects : List E
  isFlushing : Bool
deriving DecidableEq

/-- `scheduleEffect`: add to the pending set; queue a microtask flush only
when not already flushing.  The returned `Bool` records whether
`queueMicrotask(flushEffects)` was invoked. -/
def scheduleEffect {E : Type} [DecidableEq E] (e : E) (st : SchedulerState E) :
    SchedulerState E × Bool :=
  if st.isFlushing then
    (⟨setAdd st.pendingEffects e, true⟩, false)
  else
    (⟨setAdd st.pendingEffects e, true⟩, true)

/-- `scheduleEffect` applied `n` times for the same effect. -/
def scheduleIter {E : Type} [DecidableEq E] (e : E) : Nat → SchedulerState E → SchedulerState E
  | 0, st => st
  | n + 1, st => scheduleIter e n (scheduleEffect e st).1

/-- A sequence of `scheduleEffect` calls; the `Bool` records whether any of
them queued a flush. -/
def scheduleMany {E : Type} [DecidableEq E] (es : List E) (st : SchedulerState E) :
    SchedulerState E × Bool :=
  es.foldl (fun acc e => ((scheduleEffect e acc.1).1, acc.2 || (scheduleEffect e acc.1).2)) (st, false)

/-- The closure state of one signal created by `createSignal`. -/
structure SignalState (T E : Type) where
  value : T
  subscribers : List E
deriving DecidableEq

/-- The `read` closure of `createSignal`: when an effect is active it is
added to the subscriber set; the current value is returned. -/
def signalRead {T E : Type} [DecidableEq E] (activeEffect : Option E)
    (sig : SignalState T E) : SignalState T E × T :=
  match activeEffect with
  | some e => (⟨sig.value, setAdd sig.subscribers e⟩, sig.value)
  | none => (sig, sig.value)

/-- The `write` closure of `createSignal`: `if (value === newValue) return;`
otherwise store the value and schedule every subscriber. -/
def signalWrite {T E : Type} [DecidableEq T] [DecidableEq E] (newValue : T)
    (sig : SignalState T E) (st : SchedulerState E) :
    SignalState T E × SchedulerState E :=
  if sig.value = newValue then (sig, st)
  else
    (⟨newValue, sig.subscribers⟩,
      sig.subscribers.foldl (fun acc e => (scheduleEffect e acc).1) st)

/-- How a flush ended: the loop finished (`normal`), an effect threw
(`raised`), or the model's fuel ran out (`fuelOut`, a model artifact). -/
inductive FlushStop where
  | normal
  | raised
  | fuelOut
deriving DecidableEq

/-- Result of the flush loop: the effects executed in order, the final
contents of the pending set, the final world state, and how it stopped. -/
structure FlushOut (E σ : Type) where
  trace : List E
  fset : List E
  world : σ
  stop : FlushStop
deriving DecidableEq

/-- The `for (const effect of pendingEffects) effect();` loop of
`flushEffects`, iterating the live set by position.  Effects scheduled by a
running effect are added with `setAdd` (during a flush `isFlushing` is
`true`, so `scheduleEffect` only adds to the set).  A `run` result with
third component `false` models a thrown exception: the loop aborts there. -/
def flushFrom {E σ : Type} [DecidableEq E] (run : E → σ → σ × List E × Bool) :
    Nat → Nat → List E → σ → FlushOut E σ
  | 0, _, s, w => ⟨[], s, w, .fuelOut⟩
  | fuel + 1, i, s, w =>
    if h : i < s.length then
      let e := s.get ⟨i, h⟩
      let step := run e w
      let s' := step.2.1.foldl setAdd s
      if step.2.2 then
        let rest := flushFrom run fuel (i + 1) s' step.1
        ⟨e :: rest.trace, rest.fset, rest.world, rest.stop⟩
      else
        ⟨[e], s', step.1, .raised⟩
    else
      ⟨[], s, w, .normal⟩

/-- `flushEffects`: run the loop; on normal completion clear the pending
set and reset `isFlushing`.  If an effect threw, the `clear()` and
`isFlushing = false` lines are never reached. -/
def flushEffects {E σ : Type} [DecidableEq E] (run : E → σ → σ × List E × Bool)
    (fuel : Nat) (st : SchedulerState E) (w : σ) :
    List E × SchedulerState E × σ × FlushStop :=
  let out := flushFrom run fuel 0 st.pendingEffects w
  match out.stop with
  | .normal => (out.trace, ⟨[], false⟩, out.world, .normal)
  | s => (out.trace, ⟨out.fset, st.isFlushing⟩, out.world, s)

/-!
The transformation engine of renamer.js (`applyRulesLocally`).  JS strings
are `List Char`; JS string indices are list indices.  The host regular
expression engine used by the user-supplied `regex` rule is abstracted as a
`RegexHost` oracle; the two in-code regex uses with known literal patterns
(the escaped case-insensitive matcher and the bracket removers) are
embedded directly by their scanning semantics.
-/

/-- `String.prototype.lastIndexOf` for a single character: `none` models
the JS sentinel `-1`. -/
def lastIndexOfChar (c : Char) : List Char → Option Nat
  | [] => none
  | x :: xs =>
    match lastIndexOfChar c xs with
    | some i => some (i + 1)
    | none => if x = c then some 0 else none

/-- ASCII case folding, the embedding of the `i` regex flag's
case-insensitive comparison for the characters these filenames use. -/
def foldCaseChar (c : Char) : Char :=
  if 'A' ≤ c ∧ c ≤ 'Z' then Char.ofNat (c.toNat + 32) else c

/-- Boolean test that `pat` occurs at the head of `l`. -/
def leadsWith : List Char → List Char → Bool
  | [], _ => true
  | _ :: _, [] => false
  | p :: ps, c :: cs => p == c && leadsWith ps cs

/-- Case-insensitive occurrence of `search` at the head of `l`. -/
def ciMatchesAt (search l : List Char) : Bool :=
  leadsWith (search.map foldCaseChar) (l.map foldCaseChar)

/-- ECMAScript `GetSubstitution` for a pattern with no capture groups:
dollar sequences in the replacement string are interpreted (`$$`, `$&`,
dollar-backquote, dollar-quote); a dollar followed by anything else is
literal.  Arguments: the matched text, the portion before the match, the
portion after the match, then the replacement template. -/
def expandDollar (matched before after : List Char) : List Char → List Char
  | [] => []
  | [c] => [c]
  | c :: d :: rest2 =>
    if c = '$' then
      if d = '$' then '$' :: expandDollar matched before after rest2
      else if d = '&' then matched ++ expandDollar matched before after rest2
      else if d = Char.ofNat 96 then before ++ expandDollar matched before after rest2
      else if d = Char.ofNat 39 then after ++ expandDollar matched before after rest2
      else c :: expandDollar matched before after (d :: rest2)
    else c :: expandDollar matched before after (d :: rest2)

/-- Left-to-right global scan of `String.prototype.replace` with a literal
(escaped) pattern matched case-insensitively.  `emit` produces the
replacement text from the matched text, the text before the match and the
text after it.  `done` accumulates the input already passed; `fuel` is the
input length at the top call (each step consumes at least one character,
so the fuel never runs out on the wrapper's calls). -/
def ciScanF (search : List Char) (emit : List Char → List Char → List Char → List Char) :
    Nat → List Char → List Char → List Char
  | 0, _, _ => []
  | _ + 1, _, [] => []
  | fuel + 1, done, c :: rs =>
    if !search.isEmpty && ciMatchesAt search (c :: rs) then
      emit ((c :: rs).take search.length) done ((c :: rs).drop search.length)
        ++ ciScanF search emit fuel (done ++ (c :: rs).take search.length)
            ((c :: rs).drop search.length)
    else
      c :: ciScanF search emit fuel (done ++ [c]) rs

/-- The `replace-case-insensitive` rule body: escape the search text,
build a `gi` regex from it, and `replace` — i.e. a global case-insensitive
literal scan whose replacement template is interpreted by
`GetSubstitution`. -/
def ciReplaceAll (search repl l : List Char) : List Char :=
  ciScanF search (fun m b a => expandDollar m b a repl) l.length [] l

/-- Modelled from the spec: `replace-case-insensitive` behaves exactly like
the literal `replace` rule except that matching ignores case — every
case-insensitive occurrence of the search text is replaced by the
replacement text verbatim. -/
def ciLiteralReplaceSpec (search repl l : List Char) : List Char :=
  ciScanF search (fun _ _ _ => repl) l.length [] l

/-- `String.prototype.split` with a non-empty string separator: pieces
between successive non-overlapping occurrences, scanning left to right. -/
def jsSplitOnF (sep : List Char) : Nat → List Char → List (List Char)
  | 0, l => [l]
  | _ + 1, [] => [[]]
  | fuel + 1, c :: rs =>
    if sep ≠ [] ∧ leadsWith sep (c :: rs) then
      [] :: jsSplitOnF sep fuel ((c :: rs).drop sep.length)
    else
      match jsSplitOnF sep fuel rs with
      | [] => [[c]]
      | p :: ps => (c :: p) :: ps

/-- `split` at every occurrence of `sep`. -/
def jsSplitOn (sep l : List Char) : List (List Char) :=
  jsSplitOnF sep l.length l

/-- The `replace` rule body: `base.split(search).join(replacement)`. -/
def replaceAllLiteral (search repl l : List Char) : List Char :=
  List.intercalate repl (jsSplitOn search l)

/-- The suffix of the list after the first occurrence of `cl`, if any. -/
def afterFirstClose (cl : Char) : List Char → Option (List Char)
  | [] => none
  | c :: rs => if c = cl then some rs else afterFirstClose cl rs

/-- The bracket-removal regexes (for example `\([^)]*\)` with flag `g`):
each match runs from an opening bracket to the first closing bracket after
it; the scan resumes after the match.  An opening bracket with no closing
bracket later in the string starts no match. -/
def removeSpansF (op cl : Char) : Nat → List Char → List Char
  | 0, _ => []
  | _ + 1, [] => []
  | fuel + 1, c :: rs =>
    if c = op then
      match afterFirstClose cl rs with
      | some rest2 => removeSpansF op cl fuel rest2
      | none => c :: removeSpansF op cl fuel rs
    else
      c :: removeSpansF op cl fuel rs

/-- Remove every shortest bracketed span and its contents. -/
def removeSpans (op cl : Char) (l : List Char) : List Char :=
  removeSpansF op cl l.length l

/-- Whitespace for the purposes of JS `trim` and the `\s` class (the
characters relevant to filenames). -/
def isJsWs (c : Char) : Bool :=
  c == ' ' || c == '\t' || c == '\n' || c == '\r' ||
  c == Char.ofNat 11 || c == Char.ofNat 12 || c == Char.ofNat 160 ||
  c == Char.ofNat 0x2028 || c == Char.ofNat 0x2029 || c == Char.ofNat 0xFEFF

/-- `String.prototype.trim`. -/
def jsTrim (l : List Char) : List Char :=
  ((l.dropWhile isJsWs).reverse.dropWhile isJsWs).reverse

/-- `trimmed.replace(/\s{2,}/g, " ")`: a run of two or more whitespace
characters becomes a single space; a lone whitespace character is kept
as it is. -/
def collapseWsF : Nat → List Char → List Char
  | 0, _ => []
  | _ + 1, [] => []
  | _ + 1, [c] => [c]
  | fuel + 1, c1 :: c2 :: rs =>
    if isJsWs c1 && isJsWs c2 then
      ' ' :: collapseWsF fuel ((c2 :: rs).dropWhile isJsWs)
    else
      c1 :: collapseWsF fuel (c2 :: rs)

/-- Collapse interior whitespace runs. -/
def collapseWs (l : List Char) : List Char :=
  collapseWsF l.length l

/-- The closed set of rule kinds understood by `applyRulesLocally`, with
the data fields each case reads.  An `Option` field models a possibly
`undefined` JS property. -/
inductive RenameRule where
  | regexRule (pattern flags : List Char) (replacement : Option (List Char))
  | replaceRule (search : List Char) (replacement : Option (List Char))
  | replaceCIRule (search : List Char) (replacement : Option (List Char))
  | trimRule (position : List Char) (count : Nat)
  | trimWhitespaceRule
  | addTextFront (text : List Char)
  | addTextBack (text : List Char)
  | removeParenthesesRule
  | removeSquareBracketsRule
  | removeCurlyBracketsRule
deriving DecidableEq

/-- The host regex engine behind `new RegExp(pattern, flags)` followed by
`replace`: given pattern, flags, replacement and input it returns the
replaced string, or `none` when the pattern is invalid and the constructor
throws. -/
def RegexHost : Type :=
  List Char → List Char → List Char → List Char → Option (List Char)

/-- A host on which every pattern is invalid (used to instantiate
theorems at concrete inputs that use no `regex` rule). -/
def noRegexHost : RegexHost := fun _ _ _ _ => none

/-- One iteration of the `for (const rule of rules)` switch of
`applyRulesLocally`, transforming the extension-free base. -/
def applyRule (host : RegexHost) (base : List Char) (rule : RenameRule) : List Char :=
  match rule with
  | .regexRule pat flags replacement =>
    if pat ≠ [] ∧ replacement.isSome then
      match host pat (if flags = [] then ['g'] else flags) (replacement.getD []) base with
      | some result => result
      | none => base
    else base
  | .replaceRule search replacement =>
    if search ≠ [] ∧ replacement.isSome then
      replaceAllLiteral search (replacement.getD []) base
    else base
  | .replaceCIRule search replacement =>
    if search ≠ [] ∧ replacement.isSome then
      ciReplaceAll search (replacement.getD []) base
    else base
  | .trimRule position count =>
    if position = String.toList "start" ∧ count ≠ 0 then base.drop count
    else if position = String.toList "end" ∧ count ≠ 0 then base.take (base.length - count)
    else base
  | .trimWhitespaceRule => collapseWs (jsTrim base)
  | .addTextFront text => if text ≠ [] then text ++ base else base
  | .addTextBack text => if text ≠ [] then base ++ text else base
  | .removeParenthesesRule => removeSpans '(' ')' base
  | .removeSquareBracketsRule => removeSpans '[' ']' base
  | .removeCurlyBracketsRule => removeSpans (Char.ofNat 123) (Char.ofNat 125) base

/-- The rule loop of `applyRulesLocally` applied to the extension-free
base, in chain order. -/
def applyRulesToBase (host : RegexHost) (base : List Char) (rules : List RenameRule) : List Char :=
  rules.foldl (applyRule host) base

/-- `applyRulesLocally`: split at the last `.` when its index is positive,
apply the rules to the name without extension, and reappend the extension
(`substring(lastDotIndex)`, so it starts with the dot). -/
def applyRulesLocally (host : RegexHost) (filename : List Char) (rules : List RenameRule) : List Char :=
  match lastIndexOfChar '.' filename with
  | some i =>
    if 0 < i then
      applyRulesToBase host (filename.take i) rules ++ filename.drop i
    else
      applyRulesToBase host filename rules
  | none => applyRulesToBase host filename rules

/-!
Rename orchestration: `renameFiles` and the per-entry path rewrite of
`displayResults`.
-/

/-- The fields of a loaded file entry that `renameFiles` reads. -/
structure FileEntry where
  name : List Char
  path : List Char
deriving DecidableEq

/-- One element of the batch sent to `window.electronAPI.renameFiles`. -/
structure RenameOp where
  originalPath : List Char
  originalName : List Char
  newName : List Char
deriving DecidableEq

/-- A rename result as merged into the results table. -/
structure RenameResultM where
  originalName : List Char
  newName : Option (List Char)
  path : Option (List Char)
  error : Option (List Char)
  success : Bool
  unchanged : Bool
deriving DecidableEq

/-- The synthesized result for an operation whose name did not change. -/
def synthUnchanged (op : RenameOp) : RenameResultM :=
  ⟨op.originalName, some op.originalName, none, none, true, true⟩

/-- `renameFiles` up to the merge handed to `displayResults`, with the
external rename collaborator abstracted as `collab`.  `none` models the
early returns (no files, no valid rules, or no operation whose computed
name differs); otherwise the merged results list and the submitted batch
are returned. -/
def renameFilesModel (host : RegexHost) (collab : List RenameOp → List RenameResultM)
    (files : List FileEntry) (rules : List RenameRule) :
    Option (List RenameResultM × List RenameOp) :=
  if files = [] then none
  else if rules = [] then none
  else
    let allOps : List RenameOp :=
      files.map fun f => ⟨f.path, f.name, applyRulesLocally host f.name rules⟩
    let renameOps := allOps.filter fun op => op.originalName ≠ op.newName
    if renameOps = [] then none
    else
      let unchangedResults :=
        (allOps.filter fun op => op.originalName = op.newName).map synthUnchanged
      some (collab renameOps ++ unchangedResults, renameOps)

/-- `Math.max(path.lastIndexOf("/"), path.lastIndexOf("\\"))` with `none`
for the JS sentinel `-1`. -/
def lastSepIndex (p : List Char) : Option Nat :=
  match lastIndexOfChar '/' p, lastIndexOfChar (Char.ofNat 92) p with
  | none, none => none
  | some i, none => some i
  | none, some j => some j
  | some i, some j => some (max i j)

/-- The path rewrite of `displayResults`: keep everything up to and
including the last separator and append the new name; with no separator
the whole path becomes the new name. -/
def updatedPath (originalPath newName : List Char) : List Char :=
  match lastSepIndex originalPath with
  | some i => originalPath.take (i + 1) ++ newName
  | none => newName

/-- The per-entry update of `displayResults`: only when the looked-up
result exists, reports success and carries a truthy (non-empty) new name
are the entry's name and path rewritten. -/
def applyResultToEntry (entry : FileEntry) (res : Option RenameResultM) : FileEntry :=
  match res with
  | some r =>
    match r.newName with
    | some n =>
      if r.success ∧ n ≠ [] then
        ⟨n, updatedPath entry.path n⟩
      else entry
    | none => entry
  | none => entry

/-!
Shared lemmas about the `Set` model and the flush loop.
-/

theorem setAdd_of_mem {E : Type} [DecidableEq E] {s : List E} {e : E} (h : e ∈ s) :
    setAdd s e = s := by
  simp [setAdd, h]

theorem mem_setAdd_self {E : Type} [DecidableEq E] (s : List E) (e : E) :
    e ∈ setAdd s e := by
  by_cases h : e ∈ s <;> simp [setAdd, h]

theorem setAdd_extends {E : Type} [DecidableEq E] (s : List E) (e : E) :
    s <+: setAdd s e := by
  unfold setAdd
  split
  · exact List.prefix_refl s
  · exact List.prefix_append s [e]

theorem nodup_setAdd {E : Type} [DecidableEq E] {s : List E} (h : s.Nodup) (e : E) :
    (setAdd s e).Nodup := by
  unfold setAdd
  split
  · exact h
  · next he => simp [List.nodup_append, h, he]

theorem foldl_setAdd_extends {E : Type} [DecidableEq E] :
    ∀ (l s : List E), s <+: List.foldl setAdd s l
  | [], s => List.prefix_refl s
  | e :: l, s => (setAdd_extends s e).trans (foldl_setAdd_extends l (setAdd s e))

theorem nodup_foldl_setAdd {E : Type} [DecidableEq E] :
    ∀ (l s : List E), s.Nodup → (List.foldl setAdd s l).Nodup
  | [], _, h => h
  | e :: l, s, h => nodup_foldl_setAdd l (setAdd s e) (nodup_setAdd h e)

theorem ne_nil_foldl_setAdd {E : Type} [DecidableEq E] (l s : List E) (h : s ≠ []) :
    List.foldl setAdd s l ≠ [] := by
  intro hc
  have hle := (foldl_setAdd_extends l s).length_le
  rw [hc] at hle
  simp only [List.length_nil, Nat.le_zero] at hle
  exact h (List.length_eq_zero.mp hle)

theorem getElem_eq_of_pre {E : Type} {l₁ l₂ : List E} (h : l₁ <+: l₂) {i : Nat}
    (hi : i < l₁.length) (hi2 : i < l₂.length) :
    l₂[i] = l₁[i] := by
  obtain ⟨t, rfl⟩ := h
  exact List.getElem_append_left hi

theorem flushFrom_extends_fset {E σ : Type} [DecidableEq E] (run : E → σ → σ × List E × Bool) :
    ∀ (fuel i : Nat) (s : List E) (w : σ), s <+: (flushFrom run fuel i s w).fset
  | 0, _, s, _ => List.prefix_refl s
  | fuel + 1, i, s, w => by
    simp only [flushFrom]
    split
    · split
      · exact (foldl_setAdd_extends _ _).trans (flushFrom_extends_fset run fuel _ _ _)
      · exact foldl_setAdd_extends _ _
    · exact List.prefix_refl s

theorem flushFrom_fset_nodup {E σ : Type} [DecidableEq E] (run : E → σ → σ × List E × Bool) :
    ∀ (fuel i : Nat) (s : List E) (w : σ), s.Nodup → ((flushFrom run fuel i s w).fset).Nodup
  | 0, _, _, _, h => h
  | fuel + 1, i, s, w, h => by
    simp only [flushFrom]
    split
    · split
      · exact flushFrom_fset_nodup run fuel _ _ _ (nodup_foldl_setAdd _ _ h)
      · exact nodup_foldl_setAdd _ _ h
    · exact h

theorem flushFrom_trace_of_normal {E σ : Type} [DecidableEq E] (run : E → σ → σ × List E × Bool) :
    ∀ (fuel i : Nat) (s : List E) (w : σ),
      (flushFrom run fuel i s w).stop = .normal →
      (flushFrom run fuel i s w).trace = (flushFrom run fuel i s w).fset.drop i
  | 0, _, _, _, h => by simp [flushFrom] at h
  | fuel + 1, i, s, w, h => by
    by_cases hi : i < s.length
    · simp only [flushFrom, dif_pos hi] at h ⊢
      by_cases hok : (run (s.get ⟨i, hi⟩) w).2.2 = true
      · simp only [if_pos hok] at h ⊢
        have ih := flushFrom_trace_of_normal run fuel (i + 1)
          (List.foldl setAdd s (run (s.get ⟨i, hi⟩) w).2.1) (run (s.get ⟨i, hi⟩) w).1 h
        have hpre : s <+: (flushFrom run fuel (i + 1)
            (List.foldl setAdd s (run (s.get ⟨i, hi⟩) w).2.1) (run (s.get ⟨i, hi⟩) w).1).fset :=
          (foldl_setAdd_extends _ _).trans (flushFrom_extends_fset run fuel _ _ _)
        have hlt : i < (flushFrom run fuel (i + 1)
            (List.foldl setAdd s (run (s.get ⟨i, hi⟩) w).2.1) (run (s.get ⟨i, hi⟩) w).1).fset.length :=
          Nat.lt_of_lt_of_le hi hpre.length_le
        rw [ih, List.drop_eq_getElem_cons hlt]
        congr 1
        rw [getElem_eq_of_pre hpre hi hlt]
        simp
      · simp only [if_neg hok] at h
        simp at h
    · simp only [flushFrom, dif_neg hi] at h ⊢
      exact (List.drop_eq_nil_of_le (Nat.le_of_not_lt hi)).symm

theorem flushFrom_fset_ne_nil_of_raised {E σ : Type} [DecidableEq E]
    (run : E → σ → σ × List E × Bool) :
    ∀ (fuel i : Nat) (s : List E) (w : σ),
      (flushFrom run fuel i s w).stop = .raised → (flushFrom run fuel i s w).fset ≠ []
  | 0, _, _, _, h => by simp [flushFrom] at h
  | fuel + 1, i, s, w, h => by
    by_cases hi : i < s.length
    · simp only [flushFrom, dif_pos hi] at h ⊢
      by_cases hok : (run (s.get ⟨i, hi⟩) w).2.2 = true
      · simp only [if_pos hok] at h ⊢
        exact flushFrom_fset_ne_nil_of_raised run fuel _ _ _ h
      · simp only [if_neg hok] at h ⊢
        exact ne_nil_foldl_setAdd _ _
          (List.ne_nil_of_length_pos (Nat.lt_of_le_of_lt (Nat.zero_le i) hi))
    · simp [flushFrom, dif_neg hi] at h

theorem scheduleIter_succ_eq {E : Type} [DecidableEq E] (e : E) :
    ∀ (n : Nat) (st : SchedulerState E),
      scheduleIter e (n + 1) st = ⟨setAdd st.pendingEffects e, true⟩
  | 0, st => by
    simp only [scheduleIter, scheduleEffect]
    split <;> rfl
  | n + 1, st => by
    have h1 : (scheduleEffect e st).1 = ⟨setAdd st.pendingEffects e, true⟩ := by
      simp only [scheduleEffect]; split <;> rfl
    show scheduleIter e (n + 1) (scheduleEffect e st).1 = _
    rw [h1, scheduleIter_succ_eq e n]
    simp [setAdd_of_mem (mem_setAdd_self st.pendingEffects e)]

theorem scheduleMany_foldl_of_flushing {E : Type} [DecidableEq E] :
    ∀ (es : List E) (p : List E) (b : Bool),
      List.foldl (fun acc e => ((scheduleEffect e acc.1).1, acc.2 || (scheduleEffect e acc.1).2))
          ((⟨p, true⟩ : SchedulerState E), b) es
        = (⟨List.foldl setAdd p es, true⟩, b)
  | [], _, _ => rfl
  | e :: es, p, b => by
    simp only [List.foldl_cons, scheduleEffect]
    simp only [reduceIte]
    rw [Bool.or_false]
    exact scheduleMany_foldl_of_flushing es (setAdd p e) b

theorem scheduleMany_of_flushing {E : Type} [DecidableEq E] (es : List E) (p : List E) :
    scheduleMany es (⟨p, true⟩ : SchedulerState E) = (⟨List.foldl setAdd p es, true⟩, false) :=
  scheduleMany_foldl_of_flushing es p false

theorem expandDollar_eq_of_no_dollar (m b a : List Char) :
    ∀ repl : List Char, '$' ∉ repl → expandDollar m b a repl = repl
  | [], _ => rfl
  | [_], _ => rfl
  | c :: d :: rest2, h => by
    have hc : ¬ c = '$' := fun hc => h (by simp [hc])
    have ht : '$' ∉ d :: rest2 := fun hm => h (List.mem_cons_of_mem _ hm)
    simp only [expandDollar, if_neg hc]
    rw [expandDollar_eq_of_no_dollar m b a (d :: rest2) ht]

theorem ciScanF_congr (search : List Char)
    (e₁ e₂ : List Char → List Char → List Char → List Char)
    (h : ∀ m b a, e₁ m b a = e₂ m b a) :
    ∀ (fuel : Nat) (done rest : List Char),
      ciScanF search e₁ fuel done rest = ciScanF search e₂ fuel done rest
  | 0, _, _ => rfl
  | _ + 1, _, [] => rfl
  | fuel + 1, done, c :: rs => by
    simp only [ciScanF]
    by_cases hcond : (!search.isEmpty && ciMatchesAt search (c :: rs)) = true
    · simp only [if_pos hcond]
      rw [h, ciScanF_congr search e₁ e₂ h fuel _ _]
    · simp only [if_neg hcond]
      rw [ciScanF_congr search e₁ e₂ h fuel _ _]

/-!
The claims.
-/

/-- Claim C1: `applyRulesLocally` splits the filename at the last `.` only
when that `.` is not the first character (a filename whose only `.` is at
index 0, or that has no `.`, is all base with empty extension), applies
every rule to the base only, and reappends the extension unchanged at the
end; for any filename with a non-leading `.`, the substring from the last
`.` onward is a suffix of the output, byte for byte. -/
theorem c1_extension_preserved (host : RegexHost) (filename : List Char)
    (rules : List RenameRule) :
    (0 < (lastIndexOfChar '.' filename).getD 0 →
      applyRulesLocally host filename rules
        = applyRulesToBase host (filename.take ((lastIndexOfChar '.' filename).getD 0)) rules
            ++ filename.drop ((lastIndexOfChar '.' filename).getD 0)
      ∧ filename.drop ((lastIndexOfChar '.' filename).getD 0)
          <:+ applyRulesLocally host filename rules)
    ∧ (¬ 0 < (lastIndexOfChar '.' filename).getD 0 →
      applyRulesLocally host filename rules = applyRulesToBase host filename rules) := by
  unfold applyRulesLocally
  cases hl : lastIndexOfChar '.' filename with
  | none =>
    constructor
    · intro h; simp at h
    · intro _; rfl
  | some i =>
    simp only [Option.getD_some]
    by_cases hi : 0 < i
    · rw [if_pos hi]
      exact ⟨fun _ => ⟨rfl, List.suffix_append _ _⟩, fun h => absurd hi h⟩
    · rw [if_neg hi]
      exact ⟨fun h => absurd h hi, fun _ => rfl⟩

/-- Witness for C1 at the filename `ab.txt` and a one-rule chain. -/
theorem c1_extension_preserved_witness :
    0 < (lastIndexOfChar '.' (String.toList "ab.txt")).getD 0 ∧
    (String.toList "ab.txt").drop ((lastIndexOfChar '.' (String.toList "ab.txt")).getD 0)
      <:+ applyRulesLocally noRegexHost (String.toList "ab.txt")
            [RenameRule.addTextFront (String.toList "x")] :=
  ⟨by decide, ((c1_extension_preserved noRegexHost (String.toList "ab.txt")
      [RenameRule.addTextFront (String.toList "x")]).1 (by decide)).2⟩

/-- Claim C2: writing a signal's current value (strict equality) is a
complete no-op — the stored value is unchanged and the pending-effect set
is unchanged: `signalWrite` returns both states untouched. -/
theorem c2_equality_gate {T E : Type} [DecidableEq T] [DecidableEq E]
    (sig : SignalState T E) (st : SchedulerState E) (v : T) (h : sig.value = v) :
    signalWrite v sig st = (sig, st) := by
  simp [signalWrite, h]

/-- Witness for C2: writing `7` to a signal holding `7`. -/
theorem c2_equality_gate_witness :
    signalWrite 7 (⟨7, [0, 1]⟩ : SignalState Nat Nat) (⟨[], false⟩ : SchedulerState Nat)
      = (⟨7, [0, 1]⟩, ⟨[], false⟩) :=
  c2_equality_gate _ _ _ rfl

/-- Counterexample to C5 as stated: with replacement text `$$` the rule
does not insert the replacement literally — the code produces `$` where a
literal replacement (as in the `replace` rule) would produce `$$`. -/
theorem c5_replace_ci_dollar_counterexample :
    applyRulesLocally noRegexHost (String.toList "a")
        [RenameRule.replaceCIRule (String.toList "a") (some (String.toList "$$"))]
      = String.toList "$" ∧
    applyRulesLocally noRegexHost (String.toList "a")
        [RenameRule.replaceCIRule (String.toList "a") (some (String.toList "$$"))]
      ≠ String.toList "$$" :=
  ⟨by decide, by decide⟩

/-- Claim C5 (amended): provided the replacement text contains no `$`
(dollar sequences in a replacement are interpreted by the host `replace`),
`replace-case-insensitive` replaces every case-insensitive occurrence of
the search text by the replacement text taken literally, regex
metacharacters in the search text having no special meaning; in particular
`replaceCI("foo","X")` on `FOO-bar.txt` yields `X-bar.txt`. -/
theorem c5_replace_ci_literal (search repl base : List Char) (h : '$' ∉ repl) :
    ciReplaceAll search repl base = ciLiteralReplaceSpec search repl base ∧
    applyRulesLocally noRegexHost (String.toList "FOO-bar.txt")
        [RenameRule.replaceCIRule (String.toList "foo") (some (String.toList "X"))]
      = String.toList "X-bar.txt" := by
  refine ⟨?_, by decide⟩
  unfold ciReplaceAll ciLiteralReplaceSpec
  exact ciScanF_congr search _ _ (fun m b a => expandDollar_eq_of_no_dollar m b a repl h)
    base.length [] base

/-- Witness for C5 with the dollar-free replacement `X`. -/
theorem c5_replace_ci_literal_witness :
    ('$' ∉ String.toList "X") ∧
    ciReplaceAll (String.toList "foo") (String.toList "X") (String.toList "FOO-bar")
      = ciLiteralReplaceSpec (String.toList "foo") (String.toList "X") (String.toList "FOO-bar") :=
  ⟨by decide, (c5_replace_ci_literal (String.toList "foo") (String.toList "X")
      (String.toList "FOO-bar") (by decide)).1⟩

/-- Claim C6: the bracket-removal rules remove every shortest non-nested
bracketed span with its contents, not balanced pairs: `(a(b)c)` becomes
`c)` and `a(b(c)d)e.txt` becomes `ad)e.txt`; square and curly brackets
behave the same way. -/
theorem c6_bracket_removal_shortest_span :
    removeSpans '(' ')' (String.toList "(a(b)c)") = String.toList "c)" ∧
    applyRulesLocally noRegexHost (String.toList "a(b(c)d)e.txt")
        [RenameRule.removeParenthesesRule]
      = String.toList "ad)e.txt" ∧
    removeSpans '[' ']' (String.toList "[a[b]c]") = String.toList "c]" ∧
    removeSpans (Char.ofNat 123) (Char.ofNat 125) (String.toList "\x7ba\x7bb\x7dc\x7d")
      = String.toList "c\x7d" :=
  ⟨by decide, by decide, by decide, by decide⟩

/-- Claim C7: a `regex` rule whose pattern the host regex engine rejects
is caught and skipped, leaving the base exactly unchanged by that rule,
and the remaining rules in the chain still apply; `applyRulesLocally`
itself is a total function into strings. -/
theorem c7_invalid_regex_skipped (host : RegexHost) (base pat flags : List Char)
    (repl : Option (List Char)) (rest : List RenameRule)
    (h : host pat (if flags = [] then ['g'] else flags) (repl.getD []) base = none) :
    applyRule host base (.regexRule pat flags repl) = base ∧
    applyRulesToBase host base (.regexRule pat flags repl :: rest)
      = applyRulesToBase host base rest := by
  have h1 : applyRule host base (.regexRule pat flags repl) = base := by
    simp only [applyRule]
    split
    · rw [h]
    · rfl
  refine ⟨h1, ?_⟩
  show List.foldl (applyRule host) (applyRule host base (.regexRule pat flags repl)) rest = _
  rw [h1]
  rfl

/-- Witness for C7: the invalid pattern `[` is skipped and the trailing
rule still applies. -/
theorem c7_invalid_regex_skipped_witness :
    applyRule noRegexHost (String.toList "abc")
        (.regexRule (String.toList "[") [] (some [])) = String.toList "abc" ∧
    applyRulesToBase noRegexHost (String.toList "abc")
        [.regexRule (String.toList "[") [] (some []), .addTextBack (String.toList "z")]
      = applyRulesToBase noRegexHost (String.toList "abc")
          [.addTextBack (String.toList "z")] :=
  c7_invalid_regex_skipped noRegexHost (String.toList "abc") (String.toList "[") [] (some [])
    [.addTextBack (String.toList "z")] rfl

/-- Claim C9: a successful rename result rewrites only the final path
segment — the directory prefix up to and including the last separator is
preserved and the new name is appended as literal text, even when it
contains a separator-like character. -/
theorem c9_path_rewrite :
    (∀ (entry : FileEntry) (r : RenameResultM) (n : List Char),
        r.success = true → r.newName = some n → n ≠ [] →
        (applyResultToEntry entry (some r)).name = n ∧
        (applyResultToEntry entry (some r)).path = updatedPath entry.path n) ∧
    (∀ (p newName : List Char) (i : Nat), lastSepIndex p = some i →
        updatedPath p newName = p.take (i + 1) ++ newName ∧
        p.take (i + 1) <+: updatedPath p newName) ∧
    updatedPath (String.toList "/a/b/old.txt") (String.toList "new.txt")
      = String.toList "/a/b/new.txt" ∧
    updatedPath (String.toList "/a/b/old.txt") (String.toList "x/y.txt")
      = String.toList "/a/b/x/y.txt" := by
  refine ⟨?_, ?_, by decide, by decide⟩
  · intro entry r n hs hn hne
    simp only [applyResultToEntry]
    rw [hn]
    simp [hs, hne]
  · intro p newName i h
    unfold updatedPath
    rw [h]
    exact ⟨rfl, List.prefix_append _ _⟩

/-- Witness for C9 at `/a/b/old.txt` renamed to `new.txt`. -/
theorem c9_path_rewrite_witness :
    (applyResultToEntry ⟨String.toList "old.txt", String.toList "/a/b/old.txt"⟩
        (some ⟨String.toList "old.txt", some (String.toList "new.txt"), none, none, true, false⟩)).path
      = updatedPath (String.toList "/a/b/old.txt") (String.toList "new.txt") :=
  (c9_path_rewrite.1 ⟨String.toList "old.txt", String.toList "/a/b/old.txt"⟩
      ⟨String.toList "old.txt", some (String.toList "new.txt"), none, none, true, false⟩
      (String.toList "new.txt") rfl rfl (by decide)).2

theorem flushEffects_normal_inv {E σ : Type} [DecidableEq E] (run : E → σ → σ × List E × Bool)
    (fuel : Nat) (st : SchedulerState E) (w : σ) (tr : List E) (st' : SchedulerState E) (w' : σ)
    (h : flushEffects run fuel st w = (tr, st', w', .normal)) :
    (flushFrom run fuel 0 st.pendingEffects w).stop = .normal ∧
    tr = (flushFrom run fuel 0 st.pendingEffects w).trace ∧
    st' = ⟨[], false⟩ := by
  simp only [flushEffects] at h
  cases hstop : (flushFrom run fuel 0 st.pendingEffects w).stop with
  | normal =>
    rw [hstop] at h
    simp only [Prod.mk.injEq] at h
    exact ⟨rfl, h.1.symm, h.2.1.symm⟩
  | raised => rw [hstop] at h; simp at h
  | fuelOut => rw [hstop] at h; simp at h

theorem flushEffects_raised_inv {E σ : Type} [DecidableEq E] (run : E → σ → σ × List E × Bool)
    (fuel : Nat) (st : SchedulerState E) (w : σ) (tr : List E) (st' : SchedulerState E) (w' : σ)
    (h : flushEffects run fuel st w = (tr, st', w', .raised)) :
    (flushFrom run fuel 0 st.pendingEffects w).stop = .raised ∧
    tr = (flushFrom run fuel 0 st.pendingEffects w).trace ∧
    st' = ⟨(flushFrom run fuel 0 st.pendingEffects w).fset, st.isFlushing⟩ := by
  simp only [flushEffects] at h
  cases hstop : (flushFrom run fuel 0 st.pendingEffects w).stop with
  | normal => rw [hstop] at h; simp at h
  | raised =>
    rw [hstop] at h
    simp only [Prod.mk.injEq] at h
    exact ⟨rfl, h.1.symm, h.2.1.symm⟩
  | fuelOut => rw [hstop] at h; simp at h

/-- Claim C3: the pending queue is a deduplicating set, so scheduling an
effect any number N ≥ 1 of times before the flush leaves it exactly once
in the pending set, and a completed flush from that state runs it exactly
once. -/
theorem c3_effect_once_per_flush {E σ : Type} [DecidableEq E]
    (run : E → σ → σ × List E × Bool) (fuel : Nat) (st : SchedulerState E) (w : σ)
    (e : E) (N : Nat) (hN : 1 ≤ N) (hnd : st.pendingEffects.Nodup) :
    (scheduleIter e N st).pendingEffects.count e = 1 ∧
    ∀ (tr : List E) (st' : SchedulerState E) (w' : σ),
      flushEffects run fuel (scheduleIter e N st) w = (tr, st', w', .normal) →
      tr.count e = 1 := by
  obtain ⟨n, rfl⟩ : ∃ n, N = n + 1 := ⟨N - 1, (Nat.succ_pred_eq_of_pos hN).symm⟩
  rw [scheduleIter_succ_eq]
  have hnd' : (setAdd st.pendingEffects e).Nodup := nodup_setAdd hnd e
  have hmem : e ∈ setAdd st.pendingEffects e := mem_setAdd_self _ _
  constructor
  · exact List.count_eq_one_of_mem hnd' hmem
  · intro tr st' w' hfl
    obtain ⟨hstop, htr, -⟩ := flushEffects_normal_inv run fuel _ w tr st' w' hfl
    rw [htr, flushFrom_trace_of_normal run fuel 0 _ w hstop, List.drop_zero]
    exact List.count_eq_one_of_mem (flushFrom_fset_nodup run fuel 0 _ w hnd')
      ((flushFrom_extends_fset run fuel 0 _ w).subset hmem)

/-- Witness for C3: effect `5` scheduled three times runs once in the
flush. -/
theorem c3_effect_once_per_flush_witness :
    (scheduleIter 5 3 (⟨[], false⟩ : SchedulerState Nat)).pendingEffects.count 5 = 1 ∧
    ([5] : List Nat).count 5 = 1 :=
  ⟨(c3_effect_once_per_flush (fun (_ : Nat) (_ : Unit) => ((), [], true)) 2
      ⟨[], false⟩ () 5 3 (by decide) (by decide)).1,
   (c3_effect_once_per_flush (fun (_ : Nat) (_ : Unit) => ((), [], true)) 2
      ⟨[], false⟩ () 5 3 (by decide) (by decide)).2 [5] ⟨[], false⟩ () (by decide)⟩

/-- Claim C4: the flush loop drains the live pending set rather than a
snapshot: on normal completion the executed trace is exactly the final
pending set (so everything added during the flush ran), the initial
pending effects all ran, the set ends empty; and concretely an effect
scheduled only by a flushed effect is executed in the same flush. -/
theorem c4_flush_drains_until_empty :
    (∀ (E σ : Type) [DecidableEq E] (run : E → σ → σ × List E × Bool)
        (fuel : Nat) (p : List E) (w : σ),
        (flushFrom run fuel 0 p w).stop = .normal →
        (flushFrom run fuel 0 p w).trace = (flushFrom run fuel 0 p w).fset ∧
        ∀ x ∈ (flushFrom run fuel 0 p w).fset, x ∈ (flushFrom run fuel 0 p w).trace) ∧
    (∀ (E σ : Type) [DecidableEq E] (run : E → σ → σ × List E × Bool)
        (fuel : Nat) (st : SchedulerState E) (w : σ) (tr : List E)
        (st' : SchedulerState E) (w' : σ),
        flushEffects run fuel st w = (tr, st', w', .normal) →
        st'.pendingEffects = [] ∧ ∀ x ∈ st.pendingEffects, x ∈ tr) ∧
    (flushEffects (fun (e : Nat) (_ : Unit) => ((), if e = 0 then [1] else [], true)) 3
        (⟨[0], true⟩ : SchedulerState Nat) ()
      = ([0, 1], ⟨[], false⟩, (), .normal) ∧ (1 : Nat) ∉ ([0] : List Nat)) := by
  refine ⟨?_, ?_, by decide, by decide⟩
  · intro E σ _ run fuel p w hstop
    have ht := flushFrom_trace_of_normal run fuel 0 p w hstop
    rw [List.drop_zero] at ht
    exact ⟨ht, fun x hx => ht ▸ hx⟩
  · intro E σ _ run fuel st w tr st' w' h
    obtain ⟨hstop, htr, hst⟩ := flushEffects_normal_inv run fuel st w tr st' w' h
    refine ⟨by rw [hst], ?_⟩
    intro x hx
    have ht := flushFrom_trace_of_normal run fuel 0 st.pendingEffects w hstop
    rw [htr, ht, List.drop_zero]
    exact (flushFrom_extends_fset run fuel 0 st.pendingEffects w).subset hx

/-- Witness for C4: effect `1`, scheduled only while effect `0` runs,
is executed in the same flush. -/
theorem c4_flush_drains_until_empty_witness :
    (flushFrom (fun (e : Nat) (_ : Unit) => ((), if e = 0 then [1] else [], true)) 3 0 [0] ()).trace
      = (flushFrom (fun (e : Nat) (_ : Unit) => ((), if e = 0 then [1] else [], true)) 3 0 [0] ()).fset ∧
    (1 : Nat) ∈ (flushFrom (fun (e : Nat) (_ : Unit) => ((), if e = 0 then [1] else [], true)) 3 0 [0] ()).trace :=
  ⟨(c4_flush_drains_until_empty.1 Nat Unit
      (fun (e : Nat) (_ : Unit) => ((), if e = 0 then [1] else [], true)) 3 [0] () (by decide)).1,
   (c4_flush_drains_until_empty.1 Nat Unit
      (fun (e : Nat) (_ : Unit) => ((), if e = 0 then [1] else [], true)) 3 [0] () (by decide)).2
      1 (by decide)⟩

/-- Claim C10: if an effect throws during a flush, `flushEffects` exits
without clearing the pending set and without resetting `isFlushing`;
afterwards every `scheduleEffect` still adds to the pending set but never
queues another flush, so no effect ever runs again. -/
theorem c10_raised_flush_stalls_scheduler {E σ : Type} [DecidableEq E]
    (run : E → σ → σ × List E × Bool) (fuel : Nat) (p : List E) (w : σ)
    (tr : List E) (st' : SchedulerState E) (w' : σ)
    (h : flushEffects run fuel ⟨p, true⟩ w = (tr, st', w', .raised)) :
    st'.isFlushing = true ∧ st'.pendingEffects ≠ [] ∧
    ∀ es : List E,
      scheduleMany es st' = (⟨List.foldl setAdd st'.pendingEffects es, true⟩, false) := by
  obtain ⟨hstop, -, hst⟩ := flushEffects_raised_inv run fuel ⟨p, true⟩ w tr st' w' h
  have hne := flushFrom_fset_ne_nil_of_raised run fuel 0 p w hstop
  refine ⟨by rw [hst], by rw [hst]; exact hne, ?_⟩
  intro es
  rw [hst]
  exact scheduleMany_of_flushing es _

/-- Witness for C10 after a flush in which effect `0` scheduled effect `1`
and then threw. -/
theorem c10_raised_flush_stalls_scheduler_witness :
    (⟨[0, 1], true⟩ : SchedulerState Nat).isFlushing = true ∧
    (⟨[0, 1], true⟩ : SchedulerState Nat).pendingEffects ≠ [] ∧
    scheduleMany [7] (⟨[0, 1], true⟩ : SchedulerState Nat)
      = (⟨List.foldl setAdd (⟨[0, 1], true⟩ : SchedulerState Nat).pendingEffects [7], true⟩, false) :=
  have h := c10_raised_flush_stalls_scheduler
    (fun (e : Nat) (_ : Unit) => ((), if e = 0 then [1] else [], e != 0)) 1 [0] ()
    [0] ⟨[0, 1], true⟩ () (by decide)
  ⟨h.1, h.2.1, h.2.2 [7]⟩

/-- Counterexample to C8 as stated: when every computed name equals its
original (here one file and a valid `replace` rule that does not match),
`renameFiles` returns early — no batch and no merged results table exist,
so the unchanged entry is not synthesized into any results table. -/
theorem c8_unchanged_counterexample :
    applyRulesLocally noRegexHost (String.toList "a.txt")
        [RenameRule.replaceRule (String.toList "x") (some (String.toList "y"))]
      = String.toList "a.txt" ∧
    renameFilesModel noRegexHost (fun _ => [])
        [⟨String.toList "a.txt", String.toList "/d/a.txt"⟩]
        [RenameRule.replaceRule (String.toList "x") (some (String.toList "y"))] = none :=
  ⟨by decide, by decide⟩

/-- Claim C8 (amended): provided at least one loaded entry's computed name
differs from its original (otherwise `renameFiles` returns early and
builds no results table), every entry whose computed name equals its
original is excluded from the submitted batch, every submitted operation
has a changed name, and the unchanged entry is synthesized as a trivially
successful `unchanged` result in the merged results. -/
theorem c8_unchanged_excluded_and_synthesized (host : RegexHost)
    (collab : List RenameOp → List RenameResultM)
    (files : List FileEntry) (rules : List RenameRule) (f : FileEntry)
    (hf : f ∈ files)
    (hunch : applyRulesLocally host f.name rules = f.name)
    (hchanged : ∃ g, g ∈ files ∧ applyRulesLocally host g.name rules ≠ g.name)
    (hrules : rules ≠ []) :
    ∃ merged submitted,
      renameFilesModel host collab files rules = some (merged, submitted) ∧
      (∀ op ∈ submitted, op.originalName ≠ op.newName) ∧
      (⟨f.path, f.name, f.name⟩ : RenameOp) ∉ submitted ∧
      synthUnchanged ⟨f.path, f.name, f.name⟩ ∈ merged := by
  obtain ⟨g, hg, hgne⟩ := hchanged
  have hfiles : files ≠ [] := List.ne_nil_of_mem hf
  simp only [renameFilesModel, if_neg hfiles, if_neg hrules]
  split
  · next hc =>
    exfalso
    have hmemg : (⟨g.path, g.name, applyRulesLocally host g.name rules⟩ : RenameOp)
        ∈ (files.map fun x =>
            (⟨x.path, x.name, applyRulesLocally host x.name rules⟩ : RenameOp)).filter
          (fun op => op.originalName ≠ op.newName) := by
      rw [List.mem_filter]
      exact ⟨List.mem_map_of_mem _ hg, by simpa using fun hgg => hgne hgg.symm⟩
    rw [hc] at hmemg
    exact absurd hmemg (List.not_mem_nil _)
  · next hc =>
    refine ⟨_, _, rfl, ?_, ?_, ?_⟩
    · intro op hop
      have := List.of_mem_filter hop
      simpa using this
    · intro hmem
      have := List.of_mem_filter hmem
      simp at this
    · apply List.mem_append_right
      apply List.mem_map_of_mem
      rw [List.mem_filter]
      constructor
      · have hmf : (⟨f.path, f.name, applyRulesLocally host f.name rules⟩ : RenameOp)
            ∈ files.map fun x =>
              (⟨x.path, x.name, applyRulesLocally host x.name rules⟩ : RenameOp) :=
          List.mem_map_of_mem _ hf
        rw [hunch] at hmf
        exact hmf
      · simp

/-- Witness for C8: one unchanged and one changed file. -/
theorem c8_unchanged_excluded_and_synthesized_witness :
    ∃ merged submitted,
      renameFilesModel noRegexHost (fun _ => [])
          [⟨String.toList "a.txt", String.toList "/d/a.txt"⟩,
           ⟨String.toList "b.txt", String.toList "/d/b.txt"⟩]
          [RenameRule.replaceRule (String.toList "b") (some (String.toList "c"))]
        = some (merged, submitted) ∧
      (∀ op ∈ submitted, op.originalName ≠ op.newName) ∧
      (⟨String.toList "/d/a.txt", String.toList "a.txt", String.toList "a.txt"⟩ : RenameOp)
        ∉ submitted ∧
      synthUnchanged ⟨String.toList "/d/a.txt", String.toList "a.txt", String.toList "a.txt"⟩
        ∈ merged :=
  c8_unchanged_excluded_and_synthesized noRegexHost (fun _ => [])
    [⟨String.toList "a.txt", String.toList "/d/a.txt"⟩,
     ⟨String.toList "b.txt", String.toList "/d/b.txt"⟩]
    [RenameRule.replaceRule (String.toList "b") (some (String.toList "c"))]
    ⟨String.toList "a.txt", String.toList "/d/a.txt"⟩
    (by decide) (by decide)
    ⟨⟨String.toList "b.txt", String.toList "/d/b.txt"⟩, by decide, by decide⟩
    (by decide)
